import Mathlib

/-!
Verification of the local federated-recommendation pipeline of this
repository against its natural-language specification.

The development shallowly embeds the Python source in Lean:
dictionaries become association lists, numpy float vectors become
lists of real numbers, numpy operations become the corresponding exact
real operations, randomness becomes an explicit draw oracle, and code
that can raise an exception returns an Except value.
-/

namespace FedRec

/-- A per-item delta mapping, as in the Python dict item id to numpy vector
(src/federated_learning/bpr_dp.py). -/
abbrev DeltaMap := List (Nat × List ℝ)

/-- Euclidean norm of a vector, the embedding of np.linalg.norm. -/
noncomputable def norm2 (v : List ℝ) : ℝ :=
  Real.sqrt ((v.map fun x => x * x).sum)

/-- np.mean over a list of reals (sum divided by length). -/
noncomputable def npMean (l : List ℝ) : ℝ := l.sum / l.length

/-- np.median over a list of reals: sort ascending; middle element for odd
length, average of the two middle elements for even length. -/
noncomputable def npMedian (l : List ℝ) : ℝ :=
  let s := List.insertionSort (fun a b : ℝ => a ≤ b) l
  if l.length % 2 = 1 then s.getD (l.length / 2) 0
  else (s.getD (l.length / 2 - 1) 0 + s.getD (l.length / 2) 0) / 2

/-- Embedding of calculate_optimal_threshold (bpr_dp.py lines 8-17):
the mean or the median of the delta norms, and a ValueError for any other
method string. -/
noncomputable def calculate_optimal_threshold (delta_V : DeltaMap)
    (method : String) : Except String ℝ :=
  let norms := delta_V.map fun p => norm2 p.2
  if method = "mean" then .ok (npMean norms)
  else if method = "median" then .ok (npMedian norms)
  else .error ("Invalid method " ++ method ++ ".")

/-- One step of the clipping loop of clip_deltas (bpr_dp.py lines 25-28):
if the norm exceeds the threshold the delta becomes (delta / norm) *
clipping_threshold, otherwise it is left as is. -/
noncomputable def clipEntry (t : ℝ) (v : List ℝ) : List ℝ :=
  if t < norm2 v then v.map fun x => x / norm2 v * t else v

/-- Embedding of clip_deltas (bpr_dp.py lines 20-30): resolve the threshold
(the given one, or calculate_optimal_threshold when none is given), clip every
entry, and return the mapping together with the threshold used. -/
noncomputable def clip_deltas (delta_V : DeltaMap) (clipping_threshold : Option ℝ)
    (method : String) : Except String (DeltaMap × ℝ) := do
  let t ← match clipping_threshold with
    | some t => Except.ok t
    | none => calculate_optimal_threshold delta_V method
  Except.ok (delta_V.map (fun p => (p.1, clipEntry t p.2)), t)

/-- The two supported noise families of get_noise_function. -/
inductive NoiseKind
  | gaussian
  | laplace
deriving DecidableEq

/-- Embedding of get_noise_function (bpr_dp.py lines 33-46): the factory
succeeds only on the strings gaussian and laplace and raises a ValueError
otherwise. -/
def get_noise_function (noise_type : String) : Except String NoiseKind :=
  if noise_type = "gaussian" then .ok .gaussian
  else if noise_type = "laplace" then .ok .laplace
  else .error "Invalid noise_type. Use gaussian or laplace."

/-- The noise returned by the selected noise function, with the random draw
made explicit: np.random.normal with scale sigma is sigma times a standard
draw, and np.random.laplace with scale b is b times a standard draw.
Gaussian: sigma = sqrt(2 ln(1.25 / delta)) * (sensitivity / epsilon) with
delta = 1e-5; Laplace: scale = sensitivity / epsilon. -/
noncomputable def noiseOf (k : NoiseKind) (sensitivity epsilon : ℝ)
    (draw : List ℝ) : List ℝ :=
  match k with
  | .gaussian =>
      draw.map fun x =>
        Real.sqrt (2 * Real.log (1.25 / (1 / 100000))) * (sensitivity / epsilon) * x
  | .laplace => draw.map fun x => sensitivity / epsilon * x

/-- Elementwise vector addition, the embedding of numpy array addition
(both operands have the same shape in the source). -/
def addL (a b : List ℝ) : List ℝ := List.zipWith (· + ·) a b

/-- The per-delta perturbation of apply_differential_privacy (bpr_dp.py
lines 54-65): for a delta of positive norm, divide by the norm, add the
noise, and multiply by the norm again; a zero-norm delta gets the noise
added directly. -/
noncomputable def perturb (v noise : List ℝ) : List ℝ :=
  let n := norm2 v
  if 0 < n then (addL (v.map fun x => x / n) noise).map fun x => x * n
  else addL v noise

/-- Embedding of apply_differential_privacy (bpr_dp.py lines 49-67): deep-copy
the mapping, select the noise function, and perturb every value. The random
draw of each iteration is supplied by the oracle, keyed by item id (each key
of a dict is visited exactly once). -/
noncomputable def apply_differential_privacy (delta_V : DeltaMap)
    (epsilon sensitivity : ℝ) (noise_type : String) (draw : Nat → List ℝ) :
    Except String DeltaMap := do
  let k ← get_noise_function noise_type
  Except.ok (delta_V.map fun p =>
    (p.1, perturb p.2 (noiseOf k sensitivity epsilon (draw p.1))))

/-- The caller-visible state of the delta mapping after
calculate_optimal_threshold returns: the function only reads the mapping
(it builds a fresh list of norms), so the mapping is unchanged. -/
def calculate_optimal_threshold_post (delta_V : DeltaMap) (_method : String) :
    DeltaMap := delta_V

/-- The caller-visible state of the delta mapping after clip_deltas returns:
the loop at bpr_dp.py lines 25-28 assigns delta_V[item_id] in place, so after
the call the caller dict holds the clipped mapping (the returned mapping is
the very same object). When threshold resolution raises, the loop is never
entered and the mapping is untouched. -/
noncomputable def clip_deltas_post (delta_V : DeltaMap)
    (clipping_threshold : Option ℝ) (method : String) : DeltaMap :=
  match clip_deltas delta_V clipping_threshold method with
  | .ok (out, _) => out
  | .error _ => delta_V

/-- The caller-visible state of the delta mapping after
apply_differential_privacy returns: the function deep-copies the mapping
first (bpr_dp.py line 51) and every write goes to the copy, so the input
mapping is unchanged. -/
noncomputable def apply_differential_privacy_post (delta_V : DeltaMap)
    (_epsilon _sensitivity : ℝ) (_noise_type : String) (_draw : Nat → List ℝ) :
    DeltaMap := delta_V

/-- A scored prediction triple (title, item id, predicted rating), as in
bpr_participant_local_recommendation.py. -/
abbrev Pred := String × Nat × ℝ

/-- np.min over a nonempty list (totalized with 0 on the empty list, which the
source never reaches: it either guards the empty case or raises before). -/
noncomputable def listMin : List ℝ → ℝ
  | [] => 0
  | x :: xs => xs.foldl min x

/-- np.max over a nonempty list, totalized like listMin. -/
noncomputable def listMax : List ℝ → ℝ
  | [] => 0
  | x :: xs => xs.foldl max x

/-- The min-max rescaling of a list of ratings used inside
mmr_rerank_predictions (lines 28-34): all zeros when max equals min, else
(r - min) / (max - min). -/
noncomputable def minmaxList (rs : List ℝ) : List ℝ :=
  if listMax rs - listMin rs = 0 then rs.map fun _ => 0
  else rs.map fun r => (r - listMin rs) / (listMax rs - listMin rs)

/-- Python max(xs, key=f) over a nonempty list: the first element attaining
the maximum (a later element replaces the current best only when strictly
greater). The empty case returns a junk value; the source raises there and
the call sites below never reach it. -/
noncomputable def argmaxFirst (f : Nat → ℝ) : List Nat → Nat
  | [] => 0
  | c :: cs => cs.foldl (fun best x => if f best < f x then x else best) c

/-- The MMR score of candidate idx given the already selected indices
(lines 43-56): lambda times relevance minus (1 - lambda) times the maximal
similarity to an already selected candidate, the penalty being 0 when
nothing has been selected yet. The title-embedding cosine similarity of the
external sentence-transformer model is abstracted as the oracle sim. -/
noncomputable def mmrStep (lam : ℝ) (rel : Nat → ℝ) (sim : Nat → Nat → ℝ)
    (selected : List Nat) (idx : Nat) : ℝ :=
  lam * rel idx -
    (1 - lam) *
      (match selected with
       | [] => 0
       | s :: ss => listMax ((s :: ss).map fun j => sim idx j))

/-- The greedy selection loop of mmr_rerank_predictions (lines 41-60). The
fuel argument is the number of remaining iterations, min(top_n, n) at the
top call; every iteration appends the argmax candidate to the selection and
removes it from the pool. -/
noncomputable def mmrLoop (lam : ℝ) (rel : Nat → ℝ) (sim : Nat → Nat → ℝ) :
    Nat → List Nat → List Nat → List Nat
  | 0, selected, _ => selected
  | _ + 1, selected, [] => selected
  | fuel + 1, selected, c :: cs =>
      let best := argmaxFirst (mmrStep lam rel sim selected) (c :: cs)
      mmrLoop lam rel sim fuel (selected ++ [best]) ((c :: cs).erase best)

/-- Embedding of mmr_rerank_predictions (lines 17-62). With score
normalization requested on an empty input the source raises a ValueError
(np.min of a zero-size array at line 29); this is the error case. Otherwise
the ratings are optionally min-max normalized and the greedy MMR loop
selects min(top_n, n) indices. -/
noncomputable def mmr_rerank_predictions (unprocessed_predictions : List Pred)
    (lambda_param : ℝ) (top_n : Nat) (normalize_scores : Bool)
    (sim : Nat → Nat → ℝ) : Except String (List Pred) :=
  let ratings := unprocessed_predictions.map fun p => p.2.2
  match normalize_scores, unprocessed_predictions with
  | true, [] =>
      .error "zero-size array to reduction operation minimum which has no identity"
  | _, _ =>
      let ratings_normalized := if normalize_scores then minmaxList ratings else ratings
      let selected := mmrLoop lambda_param (fun i => ratings_normalized.getD i 0) sim
        (min top_n unprocessed_predictions.length) []
        (List.range unprocessed_predictions.length)
      .ok (selected.map fun i => unprocessed_predictions.getD i ("", 0, 0))

/-- Embedding of normalize_string (lines 12-14): drop zero-width spaces and
lowercase. -/
def normalizeString (s : String) : String :=
  (s.replace "​" "").toLower

/-- The configuration block consumed from src/config.py by
compute_recommendations: NORMALIZE_ITEM_FACTORS, ITEM_FACTOR_NORM_METHOD and
ITEM_FACTOR_NORM_TARGET. -/
structure RecConfig where
  normalizeItemFactors : Bool
  itemFactorNormMethod : String
  itemFactorNormTarget : ℝ

/-- Dot product of two vectors, the embedding of numpy dot for equal-length
operands (the source always pairs the length-D user vector with a length-D
item row). -/
noncomputable def dotL (a b : List ℝ) : ℝ := (List.zipWith (· * ·) a b).sum

/-- The item-factor normalization block of compute_recommendations
(lines 123-149): l2 unit-normalizes every nonzero row, scale_mean rescales
all rows so the mean row norm hits the target, and an unknown method logs a
warning and leaves the matrix unchanged. -/
noncomputable def normalizeItemFactorsV (global_V : List (List ℝ))
    (method : String) (target : ℝ) : List (List ℝ) :=
  if method = "l2" then
    global_V.map fun row =>
      if 0 < norm2 row then row.map fun x => x / norm2 row else row
  else if method = "scale_mean" then
    let mean_norm := npMean (global_V.map norm2)
    if 0 < mean_norm then
      global_V.map fun row => row.map fun x => x * (target / mean_norm)
    else global_V
  else global_V

/-- The sigmoid display normalization of compute_recommendations
(lines 178-182). -/
noncomputable def sigmoidScore (s : ℝ) : ℝ := 1 / (1 + Real.exp (-s))

/-- Apply the sigmoid to every predicted score (lines 178-182). -/
noncomputable def sigmoidNormalize (predictions : List Pred) : List Pred :=
  predictions.map fun p => (p.1, p.2.1, sigmoidScore p.2.2)

/-- The minmax display normalization of compute_recommendations
(lines 183-198): empty list stays empty, all scores map to 0 when max equals
min, else each score is rescaled into the unit interval. -/
noncomputable def minmaxNormalize (predictions : List Pred) : List Pred :=
  match predictions with
  | [] => []
  | _ :: _ =>
      let scores := predictions.map fun p => p.2.2
      if listMax scores - listMin scores = 0 then
        predictions.map fun p => (p.1, p.2.1, (0 : ℝ))
      else
        predictions.map fun p =>
          (p.1, p.2.1, (p.2.2 - listMin scores) / (listMax scores - listMin scores))

/-- An activity row (title, first-seen week, watch count, implicit rating)
as consumed by compute_recommendations. -/
abbrev ActivityRow := String × Int × Nat × ℝ

/-- Embedding of compute_recommendations
(bpr_participant_local_recommendation.py lines 68-222). The vocabulary is an
association list title to id (a Python dict), the global matrix a list of
rows, and the reranker similarity oracle is passed through. Logging and
diagnostic blocks have no effect on the returned lists and are not modelled.
The recent-week filtering of lines 97-103 is computed exactly as in the
source and, as in the source, feeds nothing downstream. -/
noncomputable def compute_recommendations (user_U : List ℝ)
    (global_V : List (List ℝ)) (tv_vocab : List (String × Nat))
    (user_aggregated_activity : List ActivityRow) (recent_week : Int)
    (exclude_watched : Bool) (score_normalization : Option String)
    (normalize_item_factors : Option Bool)
    (item_factor_norm_method : Option String)
    (item_factor_norm_target : Option ℝ) (cfg : RecConfig)
    (sim : Nat → Nat → ℝ) : Except String (List Pred × List Pred) :=
  let recent_items :=
    (user_aggregated_activity.filter fun r => r.2.1 = recent_week).map fun r => r.1
  let _recent_item_ids :=
    (recent_items.filter fun t => (tv_vocab.lookup t).isSome).map fun t =>
      (tv_vocab.lookup t).getD 0
  let all_items := tv_vocab.map Prod.fst
  let watched_titles := user_aggregated_activity.map fun r => normalizeString r.1
  let candidate_items :=
    if exclude_watched then
      all_items.filter fun title => ¬ watched_titles.contains (normalizeString title)
    else all_items
  let nif :=
    match normalize_item_factors with
    | none => cfg.normalizeItemFactors
    | some b => b
  let v_for_scoring :=
    if nif then
      normalizeItemFactorsV global_V
        (match item_factor_norm_method with
         | none => cfg.itemFactorNormMethod
         | some m => if m = "" then cfg.itemFactorNormMethod else m)
        (match item_factor_norm_target with
         | none => cfg.itemFactorNormTarget
         | some x => if x = 0 then cfg.itemFactorNormTarget else x)
    else global_V
  let predictions := candidate_items.map fun title =>
    (title, (tv_vocab.lookup title).getD 0,
      dotL user_U (v_for_scoring.getD ((tv_vocab.lookup title).getD 0) []))
  let predictions2 :=
    match score_normalization with
    | some "sigmoid" => sigmoidNormalize predictions
    | some "minmax" => minmaxNormalize predictions
    | _ => predictions
  let sorted := List.insertionSort (fun a b : Pred => b.2.2 ≤ a.2.2) predictions2
  match mmr_rerank_predictions sorted (3 / 10) 50 score_normalization.isNone sim with
  | .error e => .error e
  | .ok reranked => .ok (sorted.take 50, reranked.take 50)

/-- A raw watch event: the title string and the parsed date. The source
parses the date string with two fixed formats and uses NaT on failure
(sequence_data.py lines 44-51); the parsed result is modelled as an optional
day number, none standing for NaT. -/
abbrev WatchRow := String × Option Int

/-- The canonical show name of a title (sequence_data.py line 54): the text
before the first colon, or the whole title when there is no colon. -/
def showOf (title : String) : String := (title.splitOn ":").headD title

/-- The size aggregation of a group (sequence_data.py line 70): the number of
raw rows whose canonical show name is s, dates included or missing alike. -/
def countShow (rows : List WatchRow) (s : String) : Nat :=
  (rows.filter fun r => showOf r.1 = s).length

/-- Minimum of a list of dates, none on the empty list. -/
def minOpt (l : List Int) : Option Int :=
  match l with
  | [] => none
  | x :: xs => some (xs.foldl min x)

/-- The min aggregation of a group (sequence_data.py line 70): the earliest
parsed date of the rows of show s; pandas min skips NaT, and is NaT when
every date of the group is NaT. -/
def firstSeenOf (rows : List WatchRow) (s : String) : Option Int :=
  minOpt ((rows.filter fun r => showOf r.1 = s).filterMap fun r => r.2)

/-- Comparison of first-seen dates as pandas sort_values orders them with
ascending=True: dates ascending, NaT placed last. -/
def dateLE (a b : Option Int) : Bool :=
  match a, b with
  | none, none => true
  | some _, none => true
  | none, some _ => false
  | some x, some y => x ≤ y

/-- One aggregated activity row of SequenceData.process_dataset: canonical
show name, total view count and earliest-seen date. -/
structure AggRow where
  show_ : String
  totalViews : Nat
  firstSeen : Option Int
deriving DecidableEq

/-- The sort_values ordering on aggregated rows: ascending by earliest-seen
date, missing dates last. -/
def aggLE (a b : AggRow) : Prop := dateLE a.firstSeen b.firstSeen = true

instance aggLE_decidable : DecidableRel aggLE := fun a b => by
  unfold aggLE
  infer_instance

instance aggLE_total : IsTotal AggRow aggLE := by
  constructor
  intro a b
  unfold aggLE dateLE
  rcases a.firstSeen with _ | x <;> rcases b.firstSeen with _ | y <;> simp
  exact le_total x y

instance aggLE_trans : IsTrans AggRow aggLE := by
  constructor
  intro a b c hab hbc
  obtain ⟨sa, va, fa⟩ := a
  obtain ⟨sb, vb, fb⟩ := b
  obtain ⟨sc, vc, fc⟩ := c
  unfold aggLE dateLE at *
  rcases fa with _ | x <;> rcases fb with _ | y <;> rcases fc with _ | z <;> simp_all
  omega

/-- Embedding of SequenceData.process_dataset (sequence_data.py lines 64-78):
group the rows by canonical show name, aggregate each group to its size and
earliest date, sort ascending by earliest date, then keep only the groups
with more than one view. Pandas emits the groups in key order and re-sorts
with an unstable quicksort, so the order of rows with equal dates is an
implementation accident; the model groups in first-occurrence order and
sorts stably, which agrees with every property the specification states. -/
def process_dataset (rows : List WatchRow) : List AggRow :=
  let shows := (rows.map fun r => showOf r.1).dedup
  let aggregated := shows.map fun s => AggRow.mk s (countShow rows s) (firstSeenOf rows s)
  let sortedAgg := List.insertionSort aggLE aggregated
  sortedAgg.filter fun r => 1 < r.totalViews

/-- The status values of the federated-learning workflow status record
(src/services/federated_learning.py). -/
inductive FLStatus
  | idle
  | running
  | fine_tuning
  | ready
  | error
  | no_viewing_history
deriving DecidableEq

/-- The observable actions of the orchestrator, in the order the source
performs them: status-record writes and the side-effecting pipeline calls. -/
inductive FLAction
  | setStatus (s : FLStatus)
  | setupEnvironment
  | getViewingHistory
  | clearUserModels
  | prepareParticipantData
  | participantFineTuning
  | runRecommendationComputation
deriving DecidableEq

/-- The external facts run_full_fl_workflow and run_fine_tuning depend on:
whether the uploaded viewing-history file exists, whether the aggregator
global model file exists, whether ratings.npy already exists, and whether
the external data-preparation and training steps complete without raising. -/
structure FLEnv where
  historyExists : Bool
  globalModelExists : Bool
  ratingsExist : Bool
  prepareSucceeds : Bool
  fineTuneSucceeds : Bool

/-- Embedding of run_fine_tuning (federated_learning.py lines 215-306) as a
trace semantics: the list of performed actions, the final status and the
boolean return value. Uncaught failures of the external training step are
the except branch that sets the error status. -/
def run_fine_tuning (env : FLEnv) : List FLAction × FLStatus × Bool :=
  let acts := [FLAction.setStatus .fine_tuning, FLAction.setupEnvironment]
  if !env.globalModelExists then
    (acts ++ [FLAction.setStatus .error], .error, false)
  else
    let afterRatings :=
      if env.ratingsExist then some acts
      else
        let acts2 := acts ++ [FLAction.getViewingHistory]
        if !env.historyExists then none
        else if !env.prepareSucceeds then none
        else some (acts2 ++ [FLAction.prepareParticipantData])
    match afterRatings with
    | none =>
        if !env.historyExists then
          (acts ++ [FLAction.getViewingHistory, FLAction.setStatus .no_viewing_history],
            .no_viewing_history, false)
        else
          (acts ++ [FLAction.getViewingHistory, FLAction.prepareParticipantData,
            FLAction.setStatus .error], .error, false)
    | some acts3 =>
        if env.fineTuneSucceeds then
          (acts3 ++ [FLAction.participantFineTuning, FLAction.setStatus .ready],
            .ready, true)
        else
          (acts3 ++ [FLAction.participantFineTuning, FLAction.setStatus .error],
            .error, false)

/-- Embedding of run_full_fl_workflow (federated_learning.py lines 309-382)
as a trace semantics. The workflow sets the running status, sets up the
environment and loads the viewing history; when none exists it sets the
no_viewing_history status and returns False at once. Otherwise it clears the
persisted user models, prepares participant data, delegates to
run_fine_tuning and, on success, triggers the recommendation computation. -/
def run_full_fl_workflow (env : FLEnv) : List FLAction × FLStatus × Bool :=
  let acts := [FLAction.setStatus .running, FLAction.setupEnvironment,
    FLAction.getViewingHistory]
  if !env.historyExists then
    (acts ++ [FLAction.setStatus .no_viewing_history], .no_viewing_history, false)
  else
    let acts2 := acts ++ [FLAction.clearUserModels]
    if !env.prepareSucceeds then
      (acts2 ++ [FLAction.prepareParticipantData, FLAction.setStatus .error],
        .error, false)
    else
      let acts3 := acts2 ++ [FLAction.prepareParticipantData]
      let ft := run_fine_tuning env
      if ft.2.2 then
        (acts3 ++ ft.1 ++ [FLAction.runRecommendationComputation], ft.2.1, true)
      else
        (acts3 ++ ft.1, ft.2.1, false)

/-! Helper lemmas about the Euclidean norm and association-list lookups. -/

theorem sumSq_nonneg (v : List ℝ) : 0 ≤ (v.map fun x => x * x).sum := by
  apply List.sum_nonneg
  intro y hy
  obtain ⟨x, _, rfl⟩ := List.mem_map.mp hy
  exact mul_self_nonneg x

theorem norm2_nonneg (v : List ℝ) : 0 ≤ norm2 v := Real.sqrt_nonneg _

theorem norm2_map_mul (c : ℝ) (v : List ℝ) :
    norm2 (v.map fun x => c * x) = |c| * norm2 v := by
  unfold norm2
  rw [List.map_map]
  have h1 : ((fun x => x * x) ∘ fun x : ℝ => c * x) = fun x : ℝ => c * c * (x * x) := by
    funext x
    simp [Function.comp]
    ring
  rw [h1, List.sum_map_mul_left, Real.sqrt_mul (mul_self_nonneg c),
    Real.sqrt_mul_self_eq_abs]

theorem exists_ne_zero_of_norm2_pos (v : List ℝ) (h : 0 < norm2 v) :
    ∃ x ∈ v, x ≠ 0 := by
  by_contra hall
  push_neg at hall
  have hz : (v.map fun x => x * x).sum = 0 := by
    apply List.sum_eq_zero
    intro y hy
    obtain ⟨x, hx, rfl⟩ := List.mem_map.mp hy
    rw [hall x hx]
    ring
  unfold norm2 at h
  rw [hz, Real.sqrt_zero] at h
  exact lt_irrefl 0 h

theorem clipEntry_eq_of_le (t : ℝ) (v : List ℝ) (h : ¬ t < norm2 v) :
    clipEntry t v = v := by
  unfold clipEntry
  rw [if_neg h]

theorem clipEntry_eq_smul (t : ℝ) (v : List ℝ) (h : t < norm2 v) :
    clipEntry t v = v.map fun x => t / norm2 v * x := by
  unfold clipEntry
  rw [if_pos h]
  have hf : (fun x : ℝ => x / norm2 v * t) = fun x : ℝ => t / norm2 v * x := by
    funext x
    ring
  rw [hf]

theorem norm2_clipEntry_eq (t : ℝ) (v : List ℝ) (ht : 0 ≤ t)
    (h : t < norm2 v) : norm2 (clipEntry t v) = t := by
  have hn : 0 < norm2 v := lt_of_le_of_lt ht h
  rw [clipEntry_eq_smul t v h, norm2_map_mul,
    abs_of_nonneg (div_nonneg ht hn.le), div_mul_cancel₀ t hn.ne']

theorem norm2_clipEntry_le (t : ℝ) (v : List ℝ) (ht : 0 ≤ t) :
    norm2 (clipEntry t v) ≤ t := by
  by_cases h : t < norm2 v
  · rw [norm2_clipEntry_eq t v ht h]
  · rw [clipEntry_eq_of_le t v h]
    exact le_of_not_lt h

theorem lookup_map_pair (f : Nat × List ℝ → List ℝ) (l : DeltaMap) (k : Nat) :
    List.lookup k (l.map fun p => (p.1, f p)) =
      (List.lookup k l).map fun v => f (k, v) := by
  induction l with
  | nil => rfl
  | cons p rest ih =>
      obtain ⟨a, v⟩ := p
      by_cases h : k = a
      · subst h
        simp [List.lookup]
      · have hb : (k == a) = false := by
          simp [h]
        simp [List.lookup, hb, ih]

theorem map_fst_pair_map (f : Nat × List ℝ → List ℝ) (l : DeltaMap) :
    (l.map fun p => (p.1, f p)).map Prod.fst = l.map Prod.fst := by
  simp [List.map_map, Function.comp]

theorem getD_nonneg (l : List ℝ) (h : ∀ x ∈ l, 0 ≤ x) (i : Nat) :
    0 ≤ l.getD i 0 := by
  by_cases hi : i < l.length
  · rw [List.getD_eq_getElem l 0 hi]
    exact h _ (List.getElem_mem hi)
  · rw [List.getD_eq_default l 0 (le_of_not_lt hi)]

theorem npMean_nonneg (l : List ℝ) (h : ∀ x ∈ l, 0 ≤ x) : 0 ≤ npMean l :=
  div_nonneg (List.sum_nonneg h) (Nat.cast_nonneg _)

theorem npMedian_nonneg (l : List ℝ) (h : ∀ x ∈ l, 0 ≤ x) : 0 ≤ npMedian l := by
  have hs : ∀ x ∈ List.insertionSort (fun a b : ℝ => a ≤ b) l, 0 ≤ x := by
    intro x hx
    exact h x ((List.mem_insertionSort _).mp hx)
  unfold npMedian
  split
  · exact getD_nonneg _ hs _
  · have h1 := getD_nonneg _ hs (l.length / 2 - 1)
    have h2 := getD_nonneg _ hs (l.length / 2)
    linarith

theorem norms_nonneg (dv : DeltaMap) : ∀ x ∈ dv.map fun p => norm2 p.2, 0 ≤ x := by
  intro x hx
  obtain ⟨p, _, rfl⟩ := List.mem_map.mp hx
  exact norm2_nonneg p.2

/-- Clipping core: the per-entry facts once the resolved threshold is known
to be nonnegative. -/
theorem clip_core (dv : DeltaMap) (t : ℝ) (ht : 0 ≤ t) :
    ∀ id v, List.lookup id dv = some v →
      ∃ w, List.lookup id (dv.map fun p => (p.1, clipEntry t p.2)) = some w ∧
        norm2 w ≤ t ∧
        (norm2 v ≤ t → w = v) ∧
        (t < norm2 v → w = (v.map fun x => t / norm2 v * x) ∧ norm2 w = t) := by
  intro id v hv
  refine ⟨clipEntry t v, ?_, norm2_clipEntry_le t v ht, ?_, ?_⟩
  · simp only [lookup_map_pair, hv, Option.map_some']
  · intro hle
    exact clipEntry_eq_of_le t v (not_lt.mpr hle)
  · intro hlt
    exact ⟨clipEntry_eq_smul t v hlt, norm2_clipEntry_eq t v ht hlt⟩

/-- Claim C1: after clip_deltas every delta norm is at most the clipping
threshold; a delta whose norm exceeds the threshold is rescaled to exactly
the threshold along its own direction (multiplied by the nonnegative factor
threshold over norm), a delta at or below the threshold is unchanged; when
no threshold is supplied the threshold used is the median (default) or the
mean of the delta norms, and the threshold actually used is returned
alongside the mapping. A supplied threshold is assumed nonnegative, as a
clipping bound on norms is. -/
theorem clip_deltas_spec (dv : DeltaMap) (ct : Option ℝ) (method : String)
    (out : DeltaMap) (t : ℝ)
    (hok : clip_deltas dv ct method = .ok (out, t))
    (hct : ∀ t0, ct = some t0 → 0 ≤ t0) :
    0 ≤ t ∧
    out.map Prod.fst = dv.map Prod.fst ∧
    (∀ id v, List.lookup id dv = some v →
      ∃ w, List.lookup id out = some w ∧
        norm2 w ≤ t ∧
        (norm2 v ≤ t → w = v) ∧
        (t < norm2 v → w = (v.map fun x => t / norm2 v * x) ∧ norm2 w = t)) ∧
    (∀ t0, ct = some t0 → t = t0) ∧
    (ct = none → method = "median" →
      t = npMedian (dv.map fun p => norm2 p.2)) ∧
    (ct = none → method = "mean" →
      t = npMean (dv.map fun p => norm2 p.2)) := by
  have main : 0 ≤ t → out = (dv.map fun p => (p.1, clipEntry t p.2)) →
      out.map Prod.fst = dv.map Prod.fst ∧
      (∀ id v, List.lookup id dv = some v →
        ∃ w, List.lookup id out = some w ∧
          norm2 w ≤ t ∧
          (norm2 v ≤ t → w = v) ∧
          (t < norm2 v → w = (v.map fun x => t / norm2 v * x) ∧ norm2 w = t)) := by
    intro ht hout
    subst hout
    refine ⟨?_, clip_core dv t ht⟩
    simp only [map_fst_pair_map]
  cases ct with
  | some t0 =>
      have ht0 : 0 ≤ t0 := hct t0 rfl
      simp only [clip_deltas, bind, Except.bind] at hok
      rw [Except.ok.injEq, Prod.mk.injEq] at hok
      obtain ⟨hout, hteq⟩ := hok
      subst hteq
      refine ⟨ht0, (main ht0 hout.symm).1, (main ht0 hout.symm).2, ?_, ?_, ?_⟩
      · intro t1 h1
        cases h1
        rfl
      · intro h
        cases h
      · intro h
        cases h
  | none =>
      simp only [clip_deltas, calculate_optimal_threshold, bind, Except.bind] at hok
      by_cases hmean : method = "mean"
      · rw [if_pos hmean] at hok
        rw [Except.ok.injEq, Prod.mk.injEq] at hok
        obtain ⟨hout, hteq⟩ := hok
        subst hteq
        have ht : 0 ≤ npMean (dv.map fun p => norm2 p.2) :=
          npMean_nonneg _ (norms_nonneg dv)
        refine ⟨ht, (main ht hout.symm).1, (main ht hout.symm).2, ?_, ?_, ?_⟩
        · intro t1 h1
          cases h1
        · intro _ hmed
          exact absurd (hmed.symm.trans hmean) (by decide)
        · intro _ _
          rfl
      · rw [if_neg hmean] at hok
        by_cases hmed : method = "median"
        · rw [if_pos hmed] at hok
          rw [Except.ok.injEq, Prod.mk.injEq] at hok
          obtain ⟨hout, hteq⟩ := hok
          subst hteq
          have ht : 0 ≤ npMedian (dv.map fun p => norm2 p.2) :=
            npMedian_nonneg _ (norms_nonneg dv)
          refine ⟨ht, (main ht hout.symm).1, (main ht hout.symm).2, ?_, ?_, ?_⟩
          · intro t1 h1
            cases h1
          · intro _ _
            rfl
          · intro _ hm
            exact absurd (hm.symm.trans hmed) (by decide)
        · rw [if_neg hmed] at hok
          cases hok

/-- Witness for C1 at the mapping with the single delta (3, 4) of norm 5 and
the supplied threshold 5. -/
theorem clip_deltas_spec_witness :
    0 ≤ (5 : ℝ) ∧
    ([((0 : Nat), clipEntry 5 [(3 : ℝ), 4])].map Prod.fst =
      [((0 : Nat), [(3 : ℝ), 4])].map Prod.fst) := by
  have h := clip_deltas_spec [((0 : Nat), [(3 : ℝ), 4])] (some 5) "median"
    [((0 : Nat), clipEntry 5 [(3 : ℝ), 4])] 5 rfl
    (by
      intro t0 ht0
      cases ht0
      norm_num)
  exact ⟨h.1, h.2.1⟩

/-- Claim C2: apply_differential_privacy keeps the key set of the mapping
and perturbs every value: a zero-norm delta gets the noise added directly,
a nonzero-norm delta has the noise added to its unit direction and the
result scaled back by the original pre-noise norm. -/
theorem apply_differential_privacy_spec (dv : DeltaMap) (epsilon sensitivity : ℝ)
    (noise_type : String) (draw : Nat → List ℝ) (out : DeltaMap)
    (hok : apply_differential_privacy dv epsilon sensitivity noise_type draw = .ok out) :
    out.map Prod.fst = dv.map Prod.fst ∧
    ∃ k, get_noise_function noise_type = .ok k ∧
      ∀ id v, List.lookup id dv = some v →
        ∃ w, List.lookup id out = some w ∧
          (norm2 v = 0 → w = addL v (noiseOf k sensitivity epsilon (draw id))) ∧
          (norm2 v ≠ 0 →
            w = (addL (v.map fun x => (norm2 v)⁻¹ * x)
                  (noiseOf k sensitivity epsilon (draw id))).map
                fun x => norm2 v * x) := by
  cases hk : get_noise_function noise_type with
  | error e =>
      simp only [apply_differential_privacy, hk, bind, Except.bind] at hok
      exact Except.noConfusion hok
  | ok k =>
      simp only [apply_differential_privacy, hk, bind, Except.bind,
        Except.ok.injEq] at hok
      subst hok
      refine ⟨?_, k, rfl, ?_⟩
      · simp only [map_fst_pair_map]
      intro id v hv
      refine ⟨perturb v (noiseOf k sensitivity epsilon (draw id)), ?_, ?_, ?_⟩
      · simp only [lookup_map_pair, hv, Option.map_some']
      · intro h0
        unfold perturb
        rw [h0]
        rw [if_neg (lt_irrefl 0)]
      · intro hne
        have hpos : 0 < norm2 v := lt_of_le_of_ne (norm2_nonneg v) (Ne.symm hne)
        unfold perturb
        rw [if_pos hpos]
        have h1 : (fun x : ℝ => x / norm2 v) = fun x : ℝ => (norm2 v)⁻¹ * x := by
          funext x
          rw [div_eq_mul_inv, mul_comm]
        have h2 : (fun x : ℝ => x * norm2 v) = fun x : ℝ => norm2 v * x := by
          funext x
          rw [mul_comm]
        rw [h1, h2]

/-- Witness for C2 at the single-entry mapping with delta (3, 4), gaussian
noise and a zero standard draw. -/
theorem apply_differential_privacy_spec_witness :
    ([((0 : Nat), perturb [(3 : ℝ), 4]
        (noiseOf .gaussian 1 1 ((fun _ : Nat => [(0 : ℝ), 0]) 0)))].map Prod.fst =
      [((0 : Nat), [(3 : ℝ), 4])].map Prod.fst) ∧
    ∃ k, get_noise_function "gaussian" = .ok k ∧
      ∀ id v, List.lookup id [((0 : Nat), [(3 : ℝ), 4])] = some v →
        ∃ w, List.lookup id
            [((0 : Nat), perturb [(3 : ℝ), 4]
              (noiseOf .gaussian 1 1 ((fun _ : Nat => [(0 : ℝ), 0]) 0)))] = some w ∧
          (norm2 v = 0 →
            w = addL v (noiseOf k 1 1 ((fun _ : Nat => [(0 : ℝ), 0]) id))) ∧
          (norm2 v ≠ 0 →
            w = (addL (v.map fun x => (norm2 v)⁻¹ * x)
                  (noiseOf k 1 1 ((fun _ : Nat => [(0 : ℝ), 0]) id))).map
                fun x => norm2 v * x) :=
  apply_differential_privacy_spec [((0 : Nat), [(3 : ℝ), 4])] 1 1 "gaussian"
    (fun _ => [(0 : ℝ), 0])
    [((0 : Nat), perturb [(3 : ℝ), 4]
      (noiseOf .gaussian 1 1 ((fun _ : Nat => [(0 : ℝ), 0]) 0)))] rfl

theorem norm2_two_zero : norm2 [(2 : ℝ), 0] = 2 := by
  unfold norm2
  have h4 : ((List.map (fun x => x * x) [(2 : ℝ), 0]).sum) = 4 := by
    simp
    norm_num
  rw [h4, show (4 : ℝ) = 2 ^ 2 by norm_num, Real.sqrt_sq (by norm_num : (0 : ℝ) ≤ 2)]

theorem map_smul_ne (v : List ℝ) (c : ℝ) (hc : c ≠ 1) (hx : ∃ x ∈ v, x ≠ 0) :
    v.map (fun x => c * x) ≠ v := by
  obtain ⟨x, hxv, hx0⟩ := hx
  intro heq
  obtain ⟨i, hi⟩ := List.mem_iff_get.mp hxv
  have h1 : (v.map fun x => c * x).get? i = v.get? i := by
    rw [heq]
  rw [List.get?_map] at h1
  rw [List.get?_eq_get i.isLt, hi] at h1
  have h2 : c * x = x := by
    exact Option.some.inj h1
  apply hc
  have h3 : c * x = 1 * x := by
    rw [one_mul]
    exact h2
  exact mul_right_cancel₀ hx0 h3

/-- Counterexample to claim C5: clip_deltas is not pure with respect to its
input mapping. The loop writes the clipped vectors back into the dict passed
in, so after clip_deltas on the mapping 0 to (2, 0) with threshold 1 the
caller mapping holds (1, 0), not (2, 0). -/
theorem clip_deltas_mutates_counterexample :
    clip_deltas_post [((0 : Nat), [(2 : ℝ), 0])] (some 1) "median" ≠
      [((0 : Nat), [(2 : ℝ), 0])] := by
  have hpost : clip_deltas_post [((0 : Nat), [(2 : ℝ), 0])] (some 1) "median" =
      [((0 : Nat), clipEntry 1 [(2 : ℝ), 0])] := rfl
  rw [hpost]
  have hclip : clipEntry 1 [(2 : ℝ), 0] = [(1 : ℝ), 0] := by
    rw [clipEntry_eq_smul 1 [(2 : ℝ), 0] (by rw [norm2_two_zero]; norm_num),
      norm2_two_zero]
    norm_num
  rw [hclip]
  intro h
  have := List.head_eq_of_cons_eq h
  rw [Prod.mk.injEq] at this
  have h2 := List.head_eq_of_cons_eq this.2
  norm_num at h2

/-- Claim C5 as amended: calculate_optimal_threshold and
apply_differential_privacy leave the input mapping unchanged (the former
only reads it, the latter deep-copies it first), but clip_deltas mutates the
input mapping in place: after a successful call the caller mapping holds the
clipped values, and an entry whose norm exceeded the threshold really
changed. -/
theorem dp_frame_spec :
    (∀ (dv : DeltaMap) (method : String),
      calculate_optimal_threshold_post dv method = dv) ∧
    (∀ (dv : DeltaMap) (epsilon sensitivity : ℝ) (noise_type : String)
      (draw : Nat → List ℝ),
      apply_differential_privacy_post dv epsilon sensitivity noise_type draw = dv) ∧
    (∀ (dv : DeltaMap) (t : ℝ) (id : Nat) (v : List ℝ),
      0 ≤ t → List.lookup id dv = some v → t < norm2 v →
      List.lookup id (clip_deltas_post dv (some t) "median") =
        some (v.map fun x => t / norm2 v * x) ∧
      (v.map fun x => t / norm2 v * x) ≠ v) := by
  refine ⟨fun _ _ => rfl, fun _ _ _ _ _ => rfl, ?_⟩
  intro dv t id v ht hv hlt
  have hn : 0 < norm2 v := lt_of_le_of_lt ht hlt
  constructor
  · have hpost : clip_deltas_post dv (some t) "median" =
        dv.map fun p => (p.1, clipEntry t p.2) := rfl
    rw [hpost]
    simp only [lookup_map_pair, hv, Option.map_some']
    rw [clipEntry_eq_smul t v hlt]
  · apply map_smul_ne
    · exact ne_of_lt ((div_lt_one hn).mpr hlt)
    · exact exists_ne_zero_of_norm2_pos v hn

/-- Witness for the amended C5 at the mapping 0 to (2, 0) with threshold 1. -/
theorem dp_frame_spec_witness :
    List.lookup 0 (clip_deltas_post [((0 : Nat), [(2 : ℝ), 0])] (some 1) "median") =
      some ([(2 : ℝ), 0].map fun x => 1 / norm2 [(2 : ℝ), 0] * x) ∧
    ([(2 : ℝ), 0].map fun x => 1 / norm2 [(2 : ℝ), 0] * x) ≠ [(2 : ℝ), 0] :=
  dp_frame_spec.2.2 [((0 : Nat), [(2 : ℝ), 0])] 1 0 [(2 : ℝ), 0]
    (by norm_num) rfl (by rw [norm2_two_zero]; norm_num)

/-- Claim C6: any noise-family string other than gaussian and laplace makes
get_noise_function raise a ValueError, and any clipping-method string other
than mean and median makes calculate_optimal_threshold raise a ValueError;
neither silently defaults. -/
theorem invalid_privacy_config_raises (s m : String) (dv : DeltaMap)
    (hs1 : s ≠ "gaussian") (hs2 : s ≠ "laplace")
    (hm1 : m ≠ "mean") (hm2 : m ≠ "median") :
    get_noise_function s = .error "Invalid noise_type. Use gaussian or laplace." ∧
    calculate_optimal_threshold dv m = .error ("Invalid method " ++ m ++ ".") := by
  constructor
  · unfold get_noise_function
    rw [if_neg hs1, if_neg hs2]
  · unfold calculate_optimal_threshold
    rw [if_neg hm1, if_neg hm2]

/-- Witness for C6 at the strings poisson and max. -/
theorem invalid_privacy_config_raises_witness :
    get_noise_function "poisson" =
      .error "Invalid noise_type. Use gaussian or laplace." ∧
    calculate_optimal_threshold [] "max" =
      .error ("Invalid method " ++ "max" ++ ".") :=
  invalid_privacy_config_raises "poisson" "max" []
    (by decide) (by decide) (by decide) (by decide)

/-! Helper lemmas for the MMR reranker. -/

theorem foldl_choice_mem (f : Nat → ℝ) :
    ∀ (cs : List Nat) (a : Nat),
      cs.foldl (fun best x => if f best < f x then x else best) a ∈ a :: cs := by
  intro cs
  induction cs with
  | nil =>
      intro a
      simp
  | cons x xs ih =>
      intro a
      simp only [List.foldl_cons]
      have h := ih (if f a < f x then x else a)
      rcases List.mem_cons.mp h with h1 | h1
      · rw [h1]
        by_cases hc : f a < f x
        · rw [if_pos hc]
          exact List.mem_cons_of_mem a (List.mem_cons_self x xs)
        · rw [if_neg hc]
          exact List.mem_cons_self a _
      · exact List.mem_cons_of_mem a (List.mem_cons_of_mem x h1)

theorem argmaxFirst_mem (f : Nat → ℝ) (c : Nat) (cs : List Nat) :
    argmaxFirst f (c :: cs) ∈ c :: cs :=
  foldl_choice_mem f cs c

/-- The greedy loop appends fresh indices drawn from the candidate pool: the
result extends the selection, stays duplicate-free, draws only from the
pool, and its added part has length min fuel (pool size). -/
theorem mmrLoop_spec (lam : ℝ) (rel : Nat → ℝ) (sim : Nat → Nat → ℝ) :
    ∀ (fuel : Nat) (sel cands : List Nat),
      sel.Nodup → cands.Nodup → (∀ x ∈ sel, x ∉ cands) →
      ∃ res, mmrLoop lam rel sim fuel sel cands = sel ++ res ∧
        (sel ++ res).Nodup ∧
        (∀ x ∈ res, x ∈ cands) ∧
        res.length = min fuel cands.length := by
  intro fuel
  induction fuel with
  | zero =>
      intro sel cands h1 _ _
      refine ⟨[], by simp [mmrLoop], by simpa using h1, by simp, by simp⟩
  | succ n ih =>
      intro sel cands h1 h2 h3
      match cands with
      | [] =>
          refine ⟨[], by simp [mmrLoop], by simpa using h1, by simp, by simp⟩
      | c :: cs =>
          have hbest : argmaxFirst (mmrStep lam rel sim sel) (c :: cs) ∈ c :: cs :=
            argmaxFirst_mem _ c cs
          set best := argmaxFirst (mmrStep lam rel sim sel) (c :: cs) with hbdef
          have hbsel : best ∉ sel := by
            intro hmem
            exact h3 best hmem hbest
          have hnd1 : (sel ++ [best]).Nodup := by
            refine List.Nodup.append h1 (List.nodup_singleton best) ?_
            intro a ha hb
            rw [List.mem_singleton] at hb
            subst hb
            exact hbsel ha
          have hnd2 : ((c :: cs).erase best).Nodup := h2.erase best
          have hdisj : ∀ x ∈ sel ++ [best], x ∉ (c :: cs).erase best := by
            intro x hx hxe
            rcases List.mem_append.mp hx with hxs | hxb
            · exact h3 x hxs (List.mem_of_mem_erase hxe)
            · rw [List.mem_singleton] at hxb
              subst hxb
              rw [List.Nodup.mem_erase_iff h2] at hxe
              exact hxe.1 rfl
          obtain ⟨res, heq, hnd, hsub, hlen⟩ :=
            ih (sel ++ [best]) ((c :: cs).erase best) hnd1 hnd2 hdisj
          have hstep : mmrLoop lam rel sim (n + 1) sel (c :: cs) =
              mmrLoop lam rel sim n (sel ++ [best]) ((c :: cs).erase best) := rfl
          refine ⟨best :: res, ?_, ?_, ?_, ?_⟩
          · rw [hstep, heq, List.append_assoc]
            rfl
          · rw [show sel ++ best :: res = (sel ++ [best]) ++ res by
              rw [List.append_assoc]; rfl]
            exact hnd
          · intro x hx
            rcases List.mem_cons.mp hx with h | h
            · rw [h]
              exact hbest
            · exact List.mem_of_mem_erase (hsub x h)
          · have herase : ((c :: cs).erase best).length = cs.length := by
              rw [List.length_erase_of_mem hbest]
              rfl
            rw [List.length_cons, hlen, herase]
            simp only [List.length_cons]
            omega

/-- The selected index list of mmr_rerank_predictions over n candidates:
duplicate-free, in range, of length min top_n n. -/
theorem mmr_selected_spec (lam : ℝ) (rel : Nat → ℝ) (sim : Nat → Nat → ℝ)
    (top_n n : Nat) :
    (mmrLoop lam rel sim (min top_n n) [] (List.range n)).Nodup ∧
    (∀ i ∈ mmrLoop lam rel sim (min top_n n) [] (List.range n), i < n) ∧
    (mmrLoop lam rel sim (min top_n n) [] (List.range n)).length = min top_n n := by
  obtain ⟨res, heq, hnd, hsub, hlen⟩ :=
    mmrLoop_spec lam rel sim (min top_n n) [] (List.range n)
      List.nodup_nil (List.nodup_range n) (by simp)
  rw [List.nil_append] at heq hnd
  rw [heq]
  refine ⟨hnd, ?_, ?_⟩
  · intro i hi
    exact List.mem_range.mp (hsub i hi)
  · rw [hlen, List.length_range]
    omega

/-- Counterexample to claim C3 as stated: on the empty input list with score
normalization requested (the default of the source), the reranker does not
return an output of size min(cap, 0) = 0; it raises a ValueError from np.min
over a zero-size array. -/
theorem mmr_rerank_empty_counterexample :
    mmr_rerank_predictions [] (3 / 10) 50 true (fun _ _ => 0) =
      .error "zero-size array to reduction operation minimum which has no identity" :=
  rfl

/-- Claim C3 as amended: whenever mmr_rerank_predictions returns an output
(equivalently, whenever the input is nonempty or normalization is off), the
output is the image of a duplicate-free list of input positions, has size
min(cap, input size), and every position is drawn from the input exactly
once; moreover each greedy selection step removes exactly one candidate from
the remaining pool. The only failing case is the empty input with
normalization on. -/
theorem mmr_rerank_spec (preds : List Pred) (lam : ℝ) (top_n : Nat)
    (normalize : Bool) (sim : Nat → Nat → ℝ)
    (hlam0 : 0 ≤ lam) (hlam1 : lam ≤ 1) :
    (∀ out, mmr_rerank_predictions preds lam top_n normalize sim = .ok out →
      ∃ idxs : List Nat,
        out = idxs.map (fun i => preds.getD i ("", 0, 0)) ∧
        idxs.Nodup ∧
        (∀ i ∈ idxs, i < preds.length) ∧
        idxs.length = min top_n preds.length ∧
        out.length = min top_n preds.length) ∧
    ((∃ e, mmr_rerank_predictions preds lam top_n normalize sim = .error e) ↔
      preds = [] ∧ normalize = true) ∧
    (∀ (rel : Nat → ℝ) (selected : List Nat) (c : Nat) (cs : List Nat),
      ((c :: cs).erase
        (argmaxFirst (mmrStep lam rel sim selected) (c :: cs))).length =
        cs.length) := by
  have herase : ∀ (rel : Nat → ℝ) (selected : List Nat) (c : Nat) (cs : List Nat),
      ((c :: cs).erase
        (argmaxFirst (mmrStep lam rel sim selected) (c :: cs))).length =
        cs.length := by
    intro rel selected c cs
    rw [List.length_erase_of_mem (argmaxFirst_mem _ c cs)]
    rfl
  have hok : ∀ (ps : List Pred) (rel : Nat → ℝ),
      ∃ idxs : List Nat,
        (mmrLoop lam rel sim (min top_n ps.length) [] (List.range ps.length)).map
            (fun i => ps.getD i ("", 0, 0)) =
          idxs.map (fun i => ps.getD i ("", 0, 0)) ∧
        idxs.Nodup ∧
        (∀ i ∈ idxs, i < ps.length) ∧
        idxs.length = min top_n ps.length ∧
        ((mmrLoop lam rel sim (min top_n ps.length) [] (List.range ps.length)).map
            (fun i => ps.getD i ("", 0, 0))).length = min top_n ps.length := by
    intro ps rel
    obtain ⟨h1, h2, h3⟩ := mmr_selected_spec lam rel sim top_n ps.length
    exact ⟨_, rfl, h1, h2, h3, by rw [List.length_map]; exact h3⟩
  cases normalize with
  | true =>
      cases preds with
      | nil =>
          refine ⟨?_, ?_, herase⟩
          · intro out hout
            exact Except.noConfusion hout
          · constructor
            · intro _
              exact ⟨rfl, rfl⟩
            · intro _
              exact ⟨_, rfl⟩
      | cons p ps =>
          refine ⟨?_, ?_, herase⟩
          · intro out hout
            simp only [mmr_rerank_predictions, Except.ok.injEq] at hout
            subst hout
            exact hok (p :: ps) _
          · constructor
            · intro ⟨e, he⟩
              simp only [mmr_rerank_predictions] at he
              exact Except.noConfusion he
            · intro ⟨h, _⟩
              exact List.noConfusion h
  | false =>
      refine ⟨?_, ?_, herase⟩
      · intro out hout
        cases preds with
        | nil =>
            simp only [mmr_rerank_predictions, Except.ok.injEq] at hout
            subst hout
            exact hok [] _
        | cons p ps =>
            simp only [mmr_rerank_predictions, Except.ok.injEq] at hout
            subst hout
            exact hok (p :: ps) _
      · constructor
        · intro ⟨e, he⟩
          cases preds with
          | nil =>
              simp only [mmr_rerank_predictions] at he
              exact Except.noConfusion he
          | cons p ps =>
              simp only [mmr_rerank_predictions] at he
              exact Except.noConfusion he
        · intro ⟨_, h⟩
          exact Bool.noConfusion h

/-- Witness for the amended C3 at a two-element prediction list, the default
relevance weight 0.3 and cap 50. -/
theorem mmr_rerank_spec_witness :
    (0 : ℝ) ≤ 3 / 10 ∧ (3 / 10 : ℝ) ≤ 1 ∧
    ((∃ e, mmr_rerank_predictions [("a", 0, (1 : ℝ)), ("b", 1, 0)] (3 / 10) 50 true
        (fun _ _ => 0) = .error e) ↔
      ([("a", 0, (1 : ℝ)), ("b", 1, 0)] : List Pred) = [] ∧ true = true) :=
  ⟨by norm_num, by norm_num,
    (mmr_rerank_spec [("a", 0, (1 : ℝ)), ("b", 1, 0)] (3 / 10) 50 true
      (fun _ _ => 0) (by norm_num) (by norm_num)).2.1⟩

/-! Helper lemmas about list minima and maxima (np.min and np.max). -/

theorem foldl_min_le (xs : List ℝ) : ∀ x : ℝ, xs.foldl min x ≤ x := by
  induction xs with
  | nil =>
      intro x
      exact le_refl x
  | cons a as ih =>
      intro x
      simp only [List.foldl_cons]
      exact le_trans (ih (min x a)) (min_le_left x a)

theorem foldl_min_le_mem (xs : List ℝ) : ∀ (x y : ℝ), y ∈ xs → xs.foldl min x ≤ y := by
  induction xs with
  | nil =>
      intro x y hy
      exact absurd hy (List.not_mem_nil y)
  | cons a as ih =>
      intro x y hy
      simp only [List.foldl_cons]
      rcases List.mem_cons.mp hy with h | h
      · subst h
        exact le_trans (foldl_min_le as (min x y)) (min_le_right x y)
      · exact ih (min x a) y h

theorem listMin_le_mem (l : List ℝ) (y : ℝ) (hy : y ∈ l) : listMin l ≤ y := by
  cases l with
  | nil => exact absurd hy (List.not_mem_nil y)
  | cons x xs =>
      simp only [listMin]
      rcases List.mem_cons.mp hy with h | h
      · subst h
        exact foldl_min_le xs y
      · exact foldl_min_le_mem xs x y h

theorem le_foldl_max (xs : List ℝ) : ∀ x : ℝ, x ≤ xs.foldl max x := by
  induction xs with
  | nil =>
      intro x
      exact le_refl x
  | cons a as ih =>
      intro x
      simp only [List.foldl_cons]
      exact le_trans (le_max_left x a) (ih (max x a))

theorem le_foldl_max_mem (xs : List ℝ) : ∀ (x y : ℝ), y ∈ xs → y ≤ xs.foldl max x := by
  induction xs with
  | nil =>
      intro x y hy
      exact absurd hy (List.not_mem_nil y)
  | cons a as ih =>
      intro x y hy
      simp only [List.foldl_cons]
      rcases List.mem_cons.mp hy with h | h
      · subst h
        exact le_trans (le_max_right x y) (le_foldl_max as (max x y))
      · exact ih (max x a) y h

theorem le_listMax_mem (l : List ℝ) (y : ℝ) (hy : y ∈ l) : y ≤ listMax l := by
  cases l with
  | nil => exact absurd hy (List.not_mem_nil y)
  | cons x xs =>
      simp only [listMax]
      rcases List.mem_cons.mp hy with h | h
      · subst h
        exact le_foldl_max xs y
      · exact le_foldl_max_mem xs x y h

theorem foldl_min_mem (xs : List ℝ) : ∀ x : ℝ, xs.foldl min x ∈ x :: xs := by
  induction xs with
  | nil =>
      intro x
      simp
  | cons a as ih =>
      intro x
      simp only [List.foldl_cons]
      have h := ih (min x a)
      rcases List.mem_cons.mp h with h1 | h1
      · rw [h1]
        rcases min_choice x a with h2 | h2
        · rw [h2]
          exact List.mem_cons_self x _
        · rw [h2]
          exact List.mem_cons_of_mem x (List.mem_cons_self a _)
      · exact List.mem_cons_of_mem x (List.mem_cons_of_mem a h1)

theorem foldl_max_mem (xs : List ℝ) : ∀ x : ℝ, xs.foldl max x ∈ x :: xs := by
  induction xs with
  | nil =>
      intro x
      simp
  | cons a as ih =>
      intro x
      simp only [List.foldl_cons]
      have h := ih (max x a)
      rcases List.mem_cons.mp h with h1 | h1
      · rw [h1]
        rcases max_choice x a with h2 | h2
        · rw [h2]
          exact List.mem_cons_self x _
        · rw [h2]
          exact List.mem_cons_of_mem x (List.mem_cons_self a _)
      · exact List.mem_cons_of_mem x (List.mem_cons_of_mem a h1)

theorem listMin_mem (l : List ℝ) (h : l ≠ []) : listMin l ∈ l := by
  cases l with
  | nil => exact absurd rfl h
  | cons x xs =>
      simp only [listMin]
      exact foldl_min_mem xs x

theorem listMax_mem (l : List ℝ) (h : l ≠ []) : listMax l ∈ l := by
  cases l with
  | nil => exact absurd rfl h
  | cons x xs =>
      simp only [listMax]
      exact foldl_max_mem xs x

theorem sigmoidScore_lt (a b : ℝ) (h : a < b) : sigmoidScore a < sigmoidScore b := by
  unfold sigmoidScore
  have h1 : Real.exp (-b) < Real.exp (-a) := Real.exp_lt_exp.mpr (by linarith)
  have h2 : 0 < 1 + Real.exp (-b) := by positivity
  have h3 : 1 + Real.exp (-b) < 1 + Real.exp (-a) := by linarith
  exact one_div_lt_one_div_of_lt h2 h3

/-- Claim C8: display-score normalization never inverts the relative
ranking. For a pair of positions with strictly ordered raw scores, the
sigmoid keeps the order strict, min-max keeps it weakly (strictly as soon as
max exceeds min), and when every raw score is equal min-max maps each score
to 0. -/
theorem display_normalization_ranking (preds : List Pred) (i j : Nat)
    (hi : i < preds.length) (hj : j < preds.length) :
    ((preds.getD j ("", 0, 0)).2.2 < (preds.getD i ("", 0, 0)).2.2 →
      ((sigmoidNormalize preds).getD j ("", 0, 0)).2.2 <
        ((sigmoidNormalize preds).getD i ("", 0, 0)).2.2 ∧
      ((minmaxNormalize preds).getD j ("", 0, 0)).2.2 ≤
        ((minmaxNormalize preds).getD i ("", 0, 0)).2.2 ∧
      (listMin (preds.map fun p => p.2.2) < listMax (preds.map fun p => p.2.2) →
        ((minmaxNormalize preds).getD j ("", 0, 0)).2.2 <
          ((minmaxNormalize preds).getD i ("", 0, 0)).2.2)) ∧
    ((∀ p ∈ preds, ∀ q ∈ preds, p.2.2 = q.2.2) →
      ((minmaxNormalize preds).getD i ("", 0, 0)).2.2 = 0) := by
  cases preds with
  | nil =>
      exact absurd hi (by simp)
  | cons p0 ps =>
      have hi2 : i < (p0 :: ps).length := hi
      have hj2 : j < (p0 :: ps).length := hj
      have hraw_i : ((p0 :: ps).getD i ("", 0, 0)) = (p0 :: ps)[i] :=
        List.getD_eq_getElem _ _ hi2
      have hraw_j : ((p0 :: ps).getD j ("", 0, 0)) = (p0 :: ps)[j] :=
        List.getD_eq_getElem _ _ hj2
      have hsig : ∀ (k : Nat) (hk : k < (p0 :: ps).length),
          ((sigmoidNormalize (p0 :: ps)).getD k ("", 0, 0)).2.2 =
            sigmoidScore ((p0 :: ps)[k].2.2) := by
        intro k hk
        have hk2 : k < (sigmoidNormalize (p0 :: ps)).length := by
          simpa [sigmoidNormalize] using hk
        rw [List.getD_eq_getElem _ _ hk2]
        simp only [sigmoidNormalize]
        rw [List.getElem_map]
      set mn := listMin ((p0 :: ps).map fun p => p.2.2) with hmn
      set mx := listMax ((p0 :: ps).map fun p => p.2.2) with hmx
      have hmem : ∀ (k : Nat) (hk : k < (p0 :: ps).length),
          (p0 :: ps)[k].2.2 ∈ (p0 :: ps).map fun p => p.2.2 := by
        intro k hk
        exact List.mem_map_of_mem _ (List.getElem_mem hk)
      have hmnle : ∀ (k : Nat) (hk : k < (p0 :: ps).length),
          mn ≤ (p0 :: ps)[k].2.2 := by
        intro k hk
        exact listMin_le_mem _ _ (hmem k hk)
      have hlemx : ∀ (k : Nat) (hk : k < (p0 :: ps).length),
          (p0 :: ps)[k].2.2 ≤ mx := by
        intro k hk
        exact le_listMax_mem _ _ (hmem k hk)
      by_cases hcond : mx - mn = 0
      · have heqmm : minmaxNormalize (p0 :: ps) =
            (p0 :: ps).map fun p => (p.1, p.2.1, (0 : ℝ)) := by
          simp only [minmaxNormalize, ← hmn, ← hmx]
          rw [if_pos hcond]
        have hmm : ∀ (k : Nat) (hk : k < (p0 :: ps).length),
            ((minmaxNormalize (p0 :: ps)).getD k ("", 0, 0)).2.2 = 0 := by
          intro k hk
          rw [heqmm]
          have hk3 : k < ((p0 :: ps).map fun p => (p.1, p.2.1, (0 : ℝ))).length := by
            simpa using hk
          rw [List.getD_eq_getElem _ _ hk3, List.getElem_map]
        refine ⟨?_, ?_⟩
        · intro hlt
          rw [hraw_i, hraw_j] at hlt
          refine ⟨?_, ?_, ?_⟩
          · rw [hsig i hi2, hsig j hj2]
            exact sigmoidScore_lt _ _ hlt
          · rw [hmm i hi2, hmm j hj2]
          · intro hmmlt
            exact absurd hcond (by linarith)
        · intro _
          exact hmm i hi2
      · have hmnmx : mn ≤ mx :=
          le_trans (hmnle i hi2) (hlemx i hi2)
        have hpos : 0 < mx - mn :=
          lt_of_le_of_ne (by linarith) (Ne.symm hcond)
        have heqmm : minmaxNormalize (p0 :: ps) =
            (p0 :: ps).map fun p => (p.1, p.2.1, (p.2.2 - mn) / (mx - mn)) := by
          simp only [minmaxNormalize, ← hmn, ← hmx]
          rw [if_neg hcond]
        have hmm : ∀ (k : Nat) (hk : k < (p0 :: ps).length),
            ((minmaxNormalize (p0 :: ps)).getD k ("", 0, 0)).2.2 =
              ((p0 :: ps)[k].2.2 - mn) / (mx - mn) := by
          intro k hk
          rw [heqmm]
          have hk3 : k <
              ((p0 :: ps).map fun p => (p.1, p.2.1, (p.2.2 - mn) / (mx - mn))).length := by
            simpa using hk
          rw [List.getD_eq_getElem _ _ hk3, List.getElem_map]
        refine ⟨?_, ?_⟩
        · intro hlt
          rw [hraw_i, hraw_j] at hlt
          have hstrict : ((minmaxNormalize (p0 :: ps)).getD j ("", 0, 0)).2.2 <
              ((minmaxNormalize (p0 :: ps)).getD i ("", 0, 0)).2.2 := by
            rw [hmm i hi2, hmm j hj2, div_lt_div_iff hpos hpos]
            nlinarith
          refine ⟨?_, le_of_lt hstrict, fun _ => hstrict⟩
          rw [hsig i hi2, hsig j hj2]
          exact sigmoidScore_lt _ _ hlt
        · intro hall
          have hmnm : mn ∈ (p0 :: ps).map fun p => p.2.2 := by
            rw [hmn]
            exact listMin_mem _ (by simp)
          have hmxm : mx ∈ (p0 :: ps).map fun p => p.2.2 := by
            rw [hmx]
            exact listMax_mem _ (by simp)
          obtain ⟨pp, hpp, hpp2⟩ := List.mem_map.mp hmnm
          obtain ⟨qq, hqq, hqq2⟩ := List.mem_map.mp hmxm
          have heq : mn = mx := by
            rw [← hpp2, ← hqq2]
            exact hall pp hpp qq hqq
          exact absurd (by linarith : mx - mn = 0) hcond

/-- Witness for C8 at the two-element prediction list with raw scores 1 and 0
(position 0 outscores position 1). -/
theorem display_normalization_ranking_witness :
    ((sigmoidNormalize [("a", 0, (1 : ℝ)), ("b", 1, 0)]).getD 1 ("", 0, 0)).2.2 <
      ((sigmoidNormalize [("a", 0, (1 : ℝ)), ("b", 1, 0)]).getD 0 ("", 0, 0)).2.2 ∧
    ((minmaxNormalize [("a", 0, (1 : ℝ)), ("b", 1, 0)]).getD 1 ("", 0, 0)).2.2 ≤
      ((minmaxNormalize [("a", 0, (1 : ℝ)), ("b", 1, 0)]).getD 0 ("", 0, 0)).2.2 ∧
    (listMin ([("a", 0, (1 : ℝ)), ("b", 1, 0)].map fun p => p.2.2) <
        listMax ([("a", 0, (1 : ℝ)), ("b", 1, 0)].map fun p => p.2.2) →
      ((minmaxNormalize [("a", 0, (1 : ℝ)), ("b", 1, 0)]).getD 1 ("", 0, 0)).2.2 <
        ((minmaxNormalize [("a", 0, (1 : ℝ)), ("b", 1, 0)]).getD 0 ("", 0, 0)).2.2) :=
  (display_normalization_ranking [("a", 0, (1 : ℝ)), ("b", 1, 0)] 0 1
      (by simp) (by simp)).1
    (by norm_num [List.getD_cons_succ, List.getD_cons_zero])

/-- Claim C4 (evaluation of the code at the failing input): with an empty
candidate set and the default display normalization (score_normalization
None), compute_recommendations does not return empty lists; the reranker
raises a ValueError from np.min over the empty ratings array. Here the
vocabulary itself is empty, so the candidate set is empty. -/
theorem compute_recommendations_empty_candidates_raises :
    compute_recommendations [] [] [] [] 51 true none (some false) none none
      ⟨true, "l2", 1⟩ (fun _ _ => 0) =
      .error "zero-size array to reduction operation minimum which has no identity" :=
  rfl

/-- Claim C10: the recent-week cutoff has no influence on the output of
compute_recommendations. Two runs that differ only in recent_week return
identical raw and reranked lists: the recent-week filtering is computed
(as in the source) and never consumed afterwards. -/
theorem compute_recommendations_recent_week_noninterference
    (user_U : List ℝ) (global_V : List (List ℝ)) (tv_vocab : List (String × Nat))
    (user_aggregated_activity : List ActivityRow) (w1 w2 : Int)
    (exclude_watched : Bool) (score_normalization : Option String)
    (normalize_item_factors : Option Bool) (item_factor_norm_method : Option String)
    (item_factor_norm_target : Option ℝ) (cfg : RecConfig) (sim : Nat → Nat → ℝ) :
    compute_recommendations user_U global_V tv_vocab user_aggregated_activity w1
      exclude_watched score_normalization normalize_item_factors
      item_factor_norm_method item_factor_norm_target cfg sim =
    compute_recommendations user_U global_V tv_vocab user_aggregated_activity w2
      exclude_watched score_normalization normalize_item_factors
      item_factor_norm_method item_factor_norm_target cfg sim :=
  rfl

/-- Claim C7: the aggregated activity of the Builder contains exactly the
canonical show groups watched strictly more than once, each carrying the
total view count and earliest-seen date of its group, and the rows are
sorted ascending by earliest-seen date. -/
theorem process_dataset_spec (rows : List WatchRow) :
    (∀ s : String,
      (∃ r ∈ process_dataset rows, r.show_ = s) ↔ 1 < countShow rows s) ∧
    (∀ r ∈ process_dataset rows,
      r.totalViews = countShow rows r.show_ ∧
      r.firstSeen = firstSeenOf rows r.show_) ∧
    List.Pairwise aggLE (process_dataset rows) := by
  have hmem_out : ∀ r : AggRow, r ∈ process_dataset rows ↔
      (r ∈ ((rows.map fun x => showOf x.1).dedup.map fun s =>
        AggRow.mk s (countShow rows s) (firstSeenOf rows s)) ∧ 1 < r.totalViews) := by
    intro r
    unfold process_dataset
    rw [List.mem_filter, List.mem_insertionSort]
    simp
  refine ⟨?_, ?_, ?_⟩
  · intro s
    constructor
    · rintro ⟨r, hr, rfl⟩
      rw [hmem_out] at hr
      obtain ⟨hmem, hviews⟩ := hr
      obtain ⟨t, _, rfl⟩ := List.mem_map.mp hmem
      exact hviews
    · intro hcount
      have hpos : 0 < countShow rows s := lt_trans zero_lt_one hcount
      have hex : ∃ x ∈ rows, showOf x.1 = s := by
        unfold countShow at hpos
        rw [List.length_pos] at hpos
        obtain ⟨x, hx⟩ := List.exists_mem_of_ne_nil _ hpos
        have hx2 := List.mem_filter.mp hx
        exact ⟨x, hx2.1, by simpa using hx2.2⟩
      obtain ⟨x, hxr, hxs⟩ := hex
      have hs_mem : s ∈ (rows.map fun x => showOf x.1).dedup := by
        rw [List.mem_dedup]
        exact List.mem_map.mpr ⟨x, hxr, hxs⟩
      refine ⟨AggRow.mk s (countShow rows s) (firstSeenOf rows s), ?_, rfl⟩
      rw [hmem_out]
      exact ⟨List.mem_map_of_mem _ hs_mem, hcount⟩
  · intro r hr
    rw [hmem_out] at hr
    obtain ⟨t, _, rfl⟩ := List.mem_map.mp hr.1
    exact ⟨rfl, rfl⟩
  · unfold process_dataset
    apply List.Pairwise.filter
    exact List.sorted_insertionSort aggLE _

/-- Witness for C7 at a three-event history: two watches of show B and a
single watch of show A; B belongs to the aggregate, A does not. -/
theorem process_dataset_spec_witness :
    ((∃ r ∈ process_dataset [("B", some 1), ("A", some 1), ("B", some 2)],
        r.show_ = "B") ↔
      1 < countShow [("B", some 1), ("A", some 1), ("B", some 2)] "B") ∧
    ((∃ r ∈ process_dataset [("B", some 1), ("A", some 1), ("B", some 2)],
        r.show_ = "A") ↔
      1 < countShow [("B", some 1), ("A", some 1), ("B", some 2)] "A") :=
  ⟨(process_dataset_spec [("B", some 1), ("A", some 1), ("B", some 2)]).1 "B",
   (process_dataset_spec [("B", some 1), ("A", some 1), ("B", some 2)]).1 "A"⟩

/-- Claim C9: a full-workflow request with no viewing history sets the
no_viewing_history status and returns unsuccessfully without clearing the
persisted user models, without preparing participant data, and without
running fine-tuning or the recommendation computation. -/
theorem run_full_fl_workflow_no_history (env : FLEnv)
    (h : env.historyExists = false) :
    (run_full_fl_workflow env).2.2 = false ∧
    (run_full_fl_workflow env).2.1 = FLStatus.no_viewing_history ∧
    FLAction.setStatus .no_viewing_history ∈ (run_full_fl_workflow env).1 ∧
    FLAction.clearUserModels ∉ (run_full_fl_workflow env).1 ∧
    FLAction.prepareParticipantData ∉ (run_full_fl_workflow env).1 ∧
    FLAction.participantFineTuning ∉ (run_full_fl_workflow env).1 ∧
    FLAction.runRecommendationComputation ∉ (run_full_fl_workflow env).1 := by
  have hred : run_full_fl_workflow env =
      ([FLAction.setStatus .running, FLAction.setupEnvironment,
        FLAction.getViewingHistory] ++ [FLAction.setStatus .no_viewing_history],
        .no_viewing_history, false) := by
    unfold run_full_fl_workflow
    rw [h]
    rfl
  rw [hred]
  refine ⟨rfl, rfl, by decide, by decide, by decide, by decide, by decide⟩

/-- Witness for C9 at an environment where only the viewing history is
missing (global model present, external steps would succeed). -/
theorem run_full_fl_workflow_no_history_witness :
    (run_full_fl_workflow ⟨false, true, true, true, true⟩).2.2 = false ∧
    (run_full_fl_workflow ⟨false, true, true, true, true⟩).2.1 =
      FLStatus.no_viewing_history ∧
    FLAction.setStatus .no_viewing_history ∈
      (run_full_fl_workflow ⟨false, true, true, true, true⟩).1 ∧
    FLAction.clearUserModels ∉ (run_full_fl_workflow ⟨false, true, true, true, true⟩).1 ∧
    FLAction.prepareParticipantData ∉
      (run_full_fl_workflow ⟨false, true, true, true, true⟩).1 ∧
    FLAction.participantFineTuning ∉
      (run_full_fl_workflow ⟨false, true, true, true, true⟩).1 ∧
    FLAction.runRecommendationComputation ∉
      (run_full_fl_workflow ⟨false, true, true, true, true⟩).1 :=
  run_full_fl_workflow_no_history ⟨false, true, true, true, true⟩ rfl

end FedRec
